import Mathlib

/-!
Shallow embedding of `packaging/os/yum_repository.py` (classes `YumRepo` and
`ManagedMode`, plus the relevant part of `main`).

Modelling conventions:
* The filesystem is an association list from paths to file contents
  (`FS`).  Paths are unique in a well-formed filesystem (`FS.Wf`).
* File contents are Lean `String`s; string helpers mirroring Python
  (`splitlines`, `str.replace`) are implemented over `String.data`
  (`List Char`).  Ledger and repo files are written by the module with
  plain `\n` line endings, so `splitlines` models Python's
  `str.splitlines` on `\n`-separated text.
* The pure model has no spurious I/O faults: opening, reading, writing
  and closing an existing file always succeed.  The only modelled error
  paths are the ones the code takes deterministically (`fail_json` on
  validation, and `os.remove` of a nonexistent path raising `OSError`).
* `module.check_mode` is an explicit `checkMode : Bool` argument.
-/

namespace YumRepoModel

/-- Python `str.splitlines` restricted to `'\n'` separators, on `List Char`:
a trailing newline does not produce a final empty line. -/
def slFold (c : Char) (acc : List (List Char)) : List (List Char) :=
  if c = '\n' then [] :: acc
  else
    match acc with
    | [] => [[c]]
    | l :: ls => (c :: l) :: ls

/-- `content.splitlines()` (with `'\n'` separators). -/
def splitlines (s : String) : List String :=
  (s.data.foldr slFold []).map fun l => String.mk l

/-- Python `str(value).replace('\n', '\n\t')` as performed by
`RawConfigParser.write` on option values. -/
def escNL (s : String) : String :=
  String.mk (s.data.foldr (fun c acc =>
    if c = '\n' then '\n' :: '\t' :: acc else c :: acc) [])

/-- Code-unit comparison of characters, as Python compares strings. -/
def charsLe : List Char → List Char → Bool
  | [], _ => true
  | _ :: _, [] => false
  | a :: as, b :: bs => if a = b then charsLe as bs else decide (a.toNat < b.toNat)

/-- Python `<=` on strings (lexicographic by code point). -/
def strLe (a b : String) : Bool := charsLe a.data b.data

/-- Stable insertion of `x` into `l` under `le` (front-biased). -/
def insort (le : α → α → Bool) (x : α) : List α → List α
  | [] => [x]
  | y :: ys => if le x y then x :: y :: ys else y :: insort le x ys

/-- Stable ascending sort under `le`; models Python `sorted`. -/
def sortBy (le : α → α → Bool) (l : List α) : List α :=
  l.foldr (insort le) []

/-! ## Filesystem model -/

/-- A filesystem: association list from path to file content. -/
abbrev FS := List (String × String)

/-- Path uniqueness; every filesystem state reachable by the OS satisfies it. -/
def FS.Wf (fs : FS) : Prop := (fs.map Prod.fst).Nodup

/-- Content of the file at `p`, if it exists. -/
def FS.read : FS → String → Option String
  | [], _ => none
  | kv :: rest, p => if kv.1 = p then some kv.2 else FS.read rest p

/-- `os.path.isfile(p)`. -/
def FS.isfile (fs : FS) (p : String) : Bool := (fs.read p).isSome

/-- Create or fully overwrite the file at `p` with content `c`. -/
def FS.write : FS → String → String → FS
  | [], p, c => [(p, c)]
  | kv :: rest, p, c => if kv.1 = p then (p, c) :: rest else kv :: FS.write rest p c

/-- `os.remove p` (the caller checks existence where the code does). -/
def FS.remove (fs : FS) (p : String) : FS :=
  fs.filter fun kv => kv.1 ≠ p

/-! ## ManagedMode

Embedding of class `ManagedMode`.  `reposdir` is `params['reposdir']`,
`ignore` is `params['ignore_repo_files']`, `checkMode` is
`module.check_mode`.  Each operation returns the new filesystem and the
`changed` flag it reports. -/

structure MM where
  reposdir : String
  ignore : List String

/-- `self.file = "%s/.managed" % reposdir`. -/
def MM.file (m : MM) : String := m.reposdir ++ "/.managed"

/-- `ManagedMode.enable`.  Creates or truncates the ledger file (live mode
only); `changed` is registered only when the file did not exist. -/
def MM.enable (m : MM) (checkMode : Bool) (fs : FS) : FS × Bool :=
  let file_exists := fs.isfile m.file
  if !file_exists || ((fs.read m.file).getD "" ≠ "") then
    let fs' := if checkMode then fs else fs.write m.file ""
    (fs', !file_exists)
  else
    (fs, false)

/-- `ManagedMode.disable`. -/
def MM.disable (m : MM) (checkMode : Bool) (fs : FS) : FS × Bool :=
  if fs.isfile m.file then
    ((if checkMode then fs else fs.remove m.file), true)
  else
    (fs, false)

/-- `ManagedMode.add`.  Opening with mode `a+` mutates nothing; the write
appends `"%s\n" % repo_file` at the end of the current content. -/
def MM.add (m : MM) (checkMode : Bool) (repo_file : String) (fs : FS) : FS × Bool :=
  match fs.read m.file with
  | none => (fs, false)
  | some c =>
    if (splitlines c).contains repo_file then
      (fs, false)
    else
      ((if checkMode then fs else fs.write m.file (c ++ repo_file ++ "\n")), true)

/-- `ManagedMode.remove`.  Scans the lines for `repo_file`, pops the first
occurrence if found, and (live mode) rebuilds the ledger file from scratch
via `enable()` and one `add` per remaining line — unconditionally, whether
or not the entry was found. -/
def MM.remove (m : MM) (checkMode : Bool) (repo_file : String) (fs : FS) : FS × Bool :=
  match fs.read m.file with
  | none => (fs, false)
  | some c =>
    let lines := splitlines c
    let changed := lines.contains repo_file
    let lines' := lines.erase repo_file
    let fs' :=
      if checkMode then fs
      else
        lines'.foldl (fun acc l => (m.add false l acc).1) (m.enable false fs).1
    (fs', changed)

/-- Does path `p` match `glob("%s/*.repo" % reposdir)`?  `*` matches any
non-empty-or-empty run of characters without `/` and does not match a
leading dot (hidden files). -/
def isRepoPath (reposdir p : String) : Bool :=
  let pre := reposdir.data ++ ['/']
  pre.isPrefixOf p.data &&
    (let b := p.data.drop pre.length
     List.isSuffixOf ".repo".data b &&
       (match b with
        | [] => false
        | c :: _ => c ≠ '.') &&
       !b.contains '/')

/-- `glob("%s/*.repo" % reposdir)` over the modelled filesystem, in
directory-listing order. -/
def globRepo (fs : FS) (reposdir : String) : List String :=
  (fs.map Prod.fst).filter (isRepoPath reposdir)

/-- `os.path.basename`: the component after the last `/`. -/
def basenameChars (cs : List Char) : List Char :=
  cs.foldl (fun acc c => if c = '/' then [] else acc ++ [c]) []

/-- `os.path.basename(f)[:-5]`: basename with the trailing `.repo`
stripped (Python `s[:-5]` is `take (length - 5)`). -/
def derivedId (p : String) : String :=
  let b := basenameChars p.data
  String.mk (b.take (b.length - 5))

/-- `ManagedMode.process`.  The ledger is read once; each unmanaged,
non-exempt repo file is deleted (live mode) and its id removed from the
ledger, the loop condition always consulting the stale in-memory list. -/
def MM.process (m : MM) (checkMode : Bool) (fs : FS) : FS × Bool :=
  if fs.isfile m.file then
    let repo_files := globRepo fs m.reposdir
    let managed_files := splitlines ((fs.read m.file).getD "")
    repo_files.foldl
      (fun acc f =>
        let repo_file := derivedId f
        if !managed_files.contains repo_file && !m.ignore.contains repo_file then
          if checkMode then (acc.1, true)
          else
            let fs1 := acc.1.remove f
            ((m.remove false repo_file fs1).1, true)
        else acc)
      (fs, false)
  else
    (fs, false)

/-! ## YumRepo

Embedding of class `YumRepo` over `ConfigParser.RawConfigParser`.  The
parser state is a document: sections in insertion order, each with its
options in insertion order (Python 2.7 backs both with `OrderedDict`;
the internal `__name__` key is skipped by both `write` and `items` and
is therefore not modelled).  Option keys supplied by the module are
already lowercase, so `optionxform` is the identity here. -/

structure Sect where
  name : String
  opts : List (String × String)
deriving DecidableEq, Repr

abbrev ConfigDoc := List Sect

def hasSection (doc : ConfigDoc) (n : String) : Bool :=
  doc.any fun s => s.name = n

/-- `remove_section`: deletes the (unique) section entry with this name. -/
def removeSection (doc : ConfigDoc) (n : String) : ConfigDoc :=
  doc.eraseP fun s => s.name = n

/-- `add_section`: appends a fresh empty section (callers guard against
duplicates, as the parser would raise `DuplicateSectionError`). -/
def addSection (doc : ConfigDoc) (n : String) : ConfigDoc :=
  doc ++ [⟨n, []⟩]

/-- `OrderedDict` assignment: update in place if the key exists, else
append. -/
def setOpt (opts : List (String × String)) (k v : String) : List (String × String) :=
  if opts.any fun kv => kv.1 = k then
    opts.map fun kv => if kv.1 = k then (k, v) else kv
  else
    opts ++ [(k, v)]

/-- `RawConfigParser.set(section, key, value)`. -/
def setDocOpt (doc : ConfigDoc) (n k v : String) : ConfigDoc :=
  doc.map fun s => if s.name = n then ⟨s.name, setOpt s.opts k v⟩ else s

/-- `sections()`: section names in insertion order. -/
def sections (doc : ConfigDoc) : List String :=
  doc.map fun s => s.name

/-- `items(section)`: the option pairs of the named section. -/
def itemsOf (doc : ConfigDoc) (n : String) : List (String × String) :=
  ((doc.find? fun s => s.name = n).map fun s => s.opts).getD []

/-- Values of module parameters after Ansible coercion: strings,
booleans, or lists of strings.  A parameter whose value is `None` is
simply absent from the map (the `value is not None` filter in
`YumRepo.add` treats the two identically). -/
inductive PVal
  | str (s : String)
  | bool (b : Bool)
  | strlist (l : List String)
deriving DecidableEq, Repr

/-- The request reaching `YumRepo.add`: `params['repoid']` plus the
parameter map (unique keys, as in a Python dict). -/
structure Definition where
  repoid : String
  params : List (String × PVal)
deriving DecidableEq, Repr

def Definition.find (d : Definition) (k : String) : Option PVal :=
  (d.params.find? fun kv => kv.1 = k).map fun kv => kv.2

def allowed_params : List String :=
  ["async", "bandwidth", "baseurl", "cost", "deltarpm_metadata_percentage",
   "deltarpm_percentage", "enabled", "enablegroups", "exclude",
   "failovermethod", "gpgcakey", "gpgcheck", "gpgkey", "http_caching",
   "include", "includepkgs", "ip_resolve", "keepalive", "keepcache",
   "metadata_expire", "metadata_expire_filter", "metalink", "mirrorlist",
   "mirrorlist_expire", "name", "password", "priority", "protect",
   "proxy", "proxy_password", "proxy_username", "repo_gpgcheck",
   "retries", "s3_enabled", "skip_if_unavailable", "sslcacert",
   "ssl_check_cert_permissions", "sslclientcert", "sslclientkey",
   "sslverify", "throttle", "timeout", "ui_repoid_vars", "username"]

def list_params : List String := ["exclude", "includepkgs"]

/-- Python `repr` of a list of strings, as `str(value)` produces when a
list value reaches `%s` formatting for a non-list parameter (modelled
for strings without quotes or escapes). -/
def pyListRepr (l : List String) : String :=
  let q := String.singleton (Char.ofNat 39)
  "[" ++ String.intercalate ", " (l.map fun s => q ++ s ++ q) ++ "]"

/-- The value coercion in `YumRepo.add`: list parameters are
space-joined, booleans become `int` (rendering as `"1"`/`"0"`), other
values pass through `%s` formatting. -/
def coerceValue (key : String) (v : PVal) : String :=
  match v with
  | .strlist l => if list_params.contains key then " ".intercalate l else pyListRepr l
  | .bool b => if b then "1" else "0"
  | .str s => s

/-- Tuple comparison used by `sorted(self.params.items())`: by key, then
by rendered value (keys are unique in a dict, so the value tie-break is
never exercised there). -/
def pairLe (a b : String × String) : Bool :=
  if a.1 = b.1 then strLe a.2 b.2 else strLe a.1 b.1

/-- `YumRepo.add`: drop any existing section of this name, add a fresh
one, require `baseurl` or `mirrorlist`, then set every allow-listed
parameter present in the request, in sorted key order. -/
def YumRepo.add (doc : ConfigDoc) (d : Definition) : Except String ConfigDoc :=
  let doc1 := if hasSection doc d.repoid then removeSection doc d.repoid else doc
  let doc2 := addSection doc1 d.repoid
  if (d.find "baseurl").isNone && (d.find "mirrorlist").isNone then
    Except.error "Paramater baseurl or mirrorlist is required for adding a new repo."
  else
    Except.ok ((sortBy (fun a b => strLe a.1 b.1) d.params).foldl
      (fun dd kv =>
        if allowed_params.contains kv.1 then
          setDocOpt dd d.repoid kv.1 (coerceValue kv.1 kv.2)
        else dd)
      doc2)

/-- `YumRepo.remove`: drop the section if present. -/
def YumRepo.remove (doc : ConfigDoc) (repoid : String) : ConfigDoc :=
  if hasSection doc repoid then removeSection doc repoid else doc

/-- `YumRepo.dump`: sections in sorted name order, options in sorted
order, `"[%s]\n"` headers and `"%s = %s\n"` lines, one blank line after
each section. -/
def YumRepo.dump (doc : ConfigDoc) : String :=
  (sortBy strLe (sections doc)).foldl
    (fun acc n =>
      acc ++ "[" ++ n ++ "]\n" ++
        (sortBy pairLe (itemsOf doc n)).foldl
          (fun a kv => a ++ kv.1 ++ " = " ++ kv.2 ++ "\n") "" ++ "\n")
    ""

/-- `RawConfigParser.write(fd)`: sections and options in insertion
order, values with `'\n'` escaped to `'\n\t'`. -/
def writeDoc (doc : ConfigDoc) : String :=
  doc.foldl
    (fun acc s =>
      acc ++ "[" ++ s.name ++ "]\n" ++
        s.opts.foldl (fun a kv => a ++ kv.1 ++ " = " ++ escNL kv.2 ++ "\n") "" ++ "\n")
    ""

/-- `YumRepo.save`: a non-empty document is written (via
`RawConfigParser.write`) to `dest`; an empty one makes the code call
`os.remove(dest)`, whose `OSError` on a nonexistent path is turned into
a module failure. -/
def YumRepo.save (doc : ConfigDoc) (dest : String) (fs : FS) : Except String FS :=
  if doc.length ≠ 0 then
    Except.ok (fs.write dest (writeDoc doc))
  else if fs.isfile dest then
    Except.ok (fs.remove dest)
  else
    Except.error ("Cannot remove empty repo file " ++ dest)

/-! ## Orchestrator (`main`)

The `state=present` / `state=absent` flows of `main` after the document
has been loaded.  `doc` stands for the parser state after
`self.repofile.read(dest)` (empty when `dest` does not exist); loading
itself mutates nothing.  `file` is `params['file']`, `dest` is
`os.path.join(reposdir, "%s.repo" % file)` (modelled for non-absolute
`file` values).  The trailing `set_fs_attributes_if_different` step is
an external collaborator and is outside the model. -/

def destPath (reposdir file : String) : String :=
  reposdir ++ "/" ++ file ++ ".repo"

/-- `main` with `state=present`: `yumrepo.add()`, `mm.add(file)` (its
result is discarded), `changed` from comparing `dump` snapshots, and a
live save only when something changed. -/
def mainPresent (m : MM) (doc : ConfigDoc) (d : Definition) (file : String)
    (checkMode : Bool) (fs : FS) : Except String (FS × Bool) :=
  let dest := destPath m.reposdir file
  match YumRepo.add doc d with
  | Except.error e => Except.error e
  | Except.ok docAfter =>
    let fs1 := (m.add checkMode file fs).1
    let changed := YumRepo.dump doc != YumRepo.dump docAfter
    if !checkMode && changed then
      (YumRepo.save docAfter dest fs1).map fun f2 => (f2, changed)
    else
      Except.ok (fs1, changed)

/-- `main` with `state=absent`: `yumrepo.remove()`, then
`mm.remove(file)` — but only when `os.path.isfile(file)` is false, i.e.
the test is on the bare file identifier resolved against the current
working directory, not on `dest` — then snapshot compare and
conditional save. -/
def mainAbsent (m : MM) (doc : ConfigDoc) (repoid file : String)
    (checkMode : Bool) (fs : FS) : Except String (FS × Bool) :=
  let dest := destPath m.reposdir file
  let docAfter := YumRepo.remove doc repoid
  let fs1 := if !fs.isfile file then (m.remove checkMode file fs).1 else fs
  let changed := YumRepo.dump doc != YumRepo.dump docAfter
  if !checkMode && changed then
    (YumRepo.save docAfter dest fs1).map fun f2 => (f2, changed)
  else
    Except.ok (fs1, changed)

/-- The operations of the two components (plus the orchestrator flows
that drive them), as selected by `state`. -/
inductive Op
  | mmEnable
  | mmDisable
  | mmAdd (id : String)
  | mmRemove (id : String)
  | mmProcess
  | present (doc : ConfigDoc) (d : Definition) (file : String)
  | absent (doc : ConfigDoc) (repoid file : String)

/-- Run one operation in the given mode. -/
def runOp (m : MM) (op : Op) (checkMode : Bool) (fs : FS) :
    Except String (FS × Bool) :=
  match op with
  | Op.mmEnable => Except.ok (m.enable checkMode fs)
  | Op.mmDisable => Except.ok (m.disable checkMode fs)
  | Op.mmAdd id => Except.ok (m.add checkMode id fs)
  | Op.mmRemove id => Except.ok (m.remove checkMode id fs)
  | Op.mmProcess => Except.ok (m.process checkMode fs)
  | Op.present doc d file => mainPresent m doc d file checkMode fs
  | Op.absent doc repoid file => mainAbsent m doc repoid file checkMode fs

/-- The document parameter of the `present`/`absent` flows is the one
`main` loaded from `dest`: when it is non-empty, `dest` was a file. -/
def LoadConsistent (m : MM) (op : Op) (fs : FS) : Prop :=
  match op with
  | Op.present doc _ file => doc ≠ [] → fs.isfile (destPath m.reposdir file) = true
  | Op.absent doc _ file => doc ≠ [] → fs.isfile (destPath m.reposdir file) = true
  | _ => True

/-! ## Basic filesystem lemmas -/

theorem FS.read_write_self (fs : FS) (p c : String) :
    (fs.write p c).read p = some c := by
  induction fs with
  | nil => simp [FS.write, FS.read]
  | cons kv rest ih =>
    by_cases h : kv.1 = p
    · simp [FS.write, FS.read, h]
    · simp [FS.write, FS.read, h, ih]

theorem FS.read_write_ne (fs : FS) (p c q : String) (h : q ≠ p) :
    (fs.write p c).read q = fs.read q := by
  have hpq : ¬(p = q) := fun hh => h hh.symm
  induction fs with
  | nil => simp [FS.write, FS.read, hpq]
  | cons kv rest ih =>
    by_cases hk : kv.1 = p
    · simp [FS.write, FS.read, hk, hpq]
    · by_cases hq : kv.1 = q
      · simp [FS.write, FS.read, hk, hq, h]
      · simp [FS.write, FS.read, hk, hq, ih]

theorem FS.read_remove_self (fs : FS) (p : String) :
    (fs.remove p).read p = none := by
  induction fs with
  | nil => rfl
  | cons kv rest ih =>
    by_cases h : kv.1 = p
    · simpa [FS.remove, h] using ih
    · simpa [FS.remove, FS.read, h] using ih

theorem FS.read_remove_ne (fs : FS) (p q : String) (h : q ≠ p) :
    (fs.remove p).read q = fs.read q := by
  have hpq : ¬(p = q) := fun hh => h hh.symm
  induction fs with
  | nil => rfl
  | cons kv rest ih =>
    by_cases hk : kv.1 = p
    · simpa [FS.remove, FS.read, hk, hpq] using ih
    · by_cases hq : kv.1 = q
      · simp [FS.remove, FS.read, List.filter, hk, hq, h]
      · simpa [FS.remove, FS.read, hk, hq] using ih

theorem FS.isfile_of_mem_keys (fs : FS) (p : String)
    (h : p ∈ fs.map Prod.fst) : fs.isfile p = true := by
  induction fs with
  | nil => simp at h
  | cons kv rest ih =>
    by_cases hk : kv.1 = p
    · simp [FS.isfile, FS.read, hk]
    · simp only [List.map_cons, List.mem_cons] at h
      rcases h with h | h
      · exact absurd h.symm hk
      · simpa [FS.isfile, FS.read, hk] using ih h

/-! ## Frame lemmas: ManagedMode operations touch only the ledger file -/

theorem MM.enable_frame (m : MM) (ck : Bool) (fs : FS) (q : String)
    (h : q ≠ m.file) : FS.read (m.enable ck fs).1 q = fs.read q := by
  simp only [MM.enable]
  split
  · cases ck with
    | true => rfl
    | false => exact FS.read_write_ne fs m.file "" q h
  · rfl

theorem MM.add_frame (m : MM) (ck : Bool) (id : String) (fs : FS) (q : String)
    (h : q ≠ m.file) : FS.read (m.add ck id fs).1 q = fs.read q := by
  simp only [MM.add]
  split
  · rfl
  · split
    · rfl
    · cases ck with
      | true => rfl
      | false => exact FS.read_write_ne fs m.file _ q h

theorem addFold_frame (m : MM) (ls : List String) (g : FS) (q : String)
    (h : q ≠ m.file) :
    FS.read (ls.foldl (fun acc l => (m.add false l acc).1) g) q = g.read q := by
  induction ls generalizing g with
  | nil => rfl
  | cons l rest ih =>
    simp only [List.foldl_cons]
    rw [ih, MM.add_frame m false l g q h]

theorem MM.remove_frame (m : MM) (ck : Bool) (id : String) (fs : FS) (q : String)
    (h : q ≠ m.file) : FS.read (m.remove ck id fs).1 q = fs.read q := by
  simp only [MM.remove]
  split
  · rfl
  · cases ck with
    | true => rfl
    | false =>
      simp only [Bool.false_eq_true, if_false]
      rw [addFold_frame m _ _ q h, MM.enable_frame m false fs q h]

/-! ## Sorting lemmas -/

theorem mem_insort (le : α → α → Bool) (x a : α) (l : List α) :
    a ∈ insort le x l ↔ a = x ∨ a ∈ l := by
  induction l with
  | nil => simp [insort]
  | cons y ys ih =>
    by_cases h : le x y
    · simp [insort, h]
    · simp only [insort, h, if_false, Bool.false_eq_true, List.mem_cons, ih]
      tauto

theorem mem_sortBy (le : α → α → Bool) (a : α) (l : List α) :
    a ∈ sortBy le l ↔ a ∈ l := by
  induction l with
  | nil => simp [sortBy]
  | cons y ys ih =>
    simp only [sortBy, List.foldr_cons] at *
    rw [mem_insort, ih, List.mem_cons]

/-- A list already pairwise-ordered is a fixed point of `sortBy`. -/
theorem sortBy_of_pairwise (le : α → α → Bool) (l : List α)
    (h : l.Pairwise fun a b => le a b = true) : sortBy le l = l := by
  induction l with
  | nil => rfl
  | cons y ys ih =>
    rcases List.pairwise_cons.mp h with ⟨hy, hys⟩
    simp only [sortBy, List.foldr_cons] at *
    rw [ih hys]
    cases ys with
    | nil => rfl
    | cons z zs => simp [insort, hy z (by simp)]

/-! ## C1: `enable()` on an existing ledger file -/

/-- C1 (counterexample): with an existing non-empty ledger file,
`enable()` in live mode truncates the file to empty yet reports
`changed = false`, refuting the claim that it reports `changed = true`. -/
theorem enable_nonempty_reports_unchanged :
    ((MM.mk "/r" []).enable false [("/r/.managed", "epel\n")]).2 = false ∧
      FS.read ((MM.mk "/r" []).enable false [("/r/.managed", "epel\n")]).1
        "/r/.managed" = some "" := by
  decide

/-- C1 (amended): for every ledger state in which the ledger file exists,
live `enable()` reports `changed = false`; it truncates the file to empty
when it was non-empty and leaves the filesystem untouched when it was
already empty. -/
theorem enable_existing (m : MM) (fs : FS) (c : String)
    (h : fs.read m.file = some c) :
    m.enable false fs = (if c = "" then fs else fs.write m.file "", false) := by
  unfold MM.enable FS.isfile
  rw [h]
  by_cases hc : c = ""
  · simp [hc]
  · simp [hc]

/-- Witness for `enable_existing` at a concrete non-empty ledger. -/
theorem enable_existing_witness :
    (MM.mk "/r" []).enable false [("/r/.managed", "x")] =
      (if ("x" : String) = "" then [("/r/.managed", "x")]
       else FS.write [("/r/.managed", "x")] (MM.mk "/r" []).file "", false) :=
  enable_existing (MM.mk "/r" []) [("/r/.managed", "x")] "x" (by decide)

/-! ## C2: `save()` of a document with zero sections -/

/-- C2 (counterexample): persisting an empty document when no file exists
at `dest` is not a no-op: `os.remove` raises `OSError`, which the code
converts into a module failure. -/
theorem save_empty_missing_file_fails :
    YumRepo.save [] "/r/epel.repo" [] =
      Except.error ("Cannot remove empty repo file " ++ "/r/epel.repo") := by
  rfl

/-- C2 (amended): persisting a document with zero sections deletes `dest`
when the file exists, and fails (module failure from the uncaught-by-intent
`OSError` of `os.remove`) when it does not. -/
theorem save_empty (dest : String) (fs : FS) :
    YumRepo.save [] dest fs =
      (if fs.isfile dest then Except.ok (fs.remove dest)
       else Except.error ("Cannot remove empty repo file " ++ dest)) := by
  rfl

/-! ## C8: `remove()` of an identifier that is not in the ledger -/

/-- Content produced by rebuilding the ledger from scratch with one
`add` per line: first occurrences kept, every line newline-terminated. -/
def canonContent (ls : List String) : String :=
  ls.foldl (fun c l => if (splitlines c).contains l then c else c ++ l ++ "\n") ""

theorem enable_live_read (m : MM) (fs : FS) (c : String)
    (h : fs.read m.file = some c) :
    FS.read (m.enable false fs).1 m.file = some "" := by
  simp only [MM.enable, FS.isfile, h]
  by_cases hc : c = ""
  · simp [hc, h]
  · simp [hc, FS.read_write_self]

theorem addFold_content (m : MM) (ls : List String) (g : FS) (cur : String)
    (h : g.read m.file = some cur) :
    FS.read (ls.foldl (fun acc l => (m.add false l acc).1) g) m.file =
      some (ls.foldl
        (fun c l => if (splitlines c).contains l then c else c ++ l ++ "\n") cur) := by
  induction ls generalizing g cur with
  | nil => simpa using h
  | cons l rest ih =>
    simp only [List.foldl_cons]
    by_cases hc : (splitlines cur).contains l = true
    · have hmem : l ∈ splitlines cur := by simpa using hc
      have hg : (m.add false l g).1 = g := by simp [MM.add, h, hmem]
      rw [hg, if_pos hc]
      exact ih g cur h
    · have hmem : l ∉ splitlines cur := by simpa using hc
      have hg : (m.add false l g).1 = g.write m.file (cur ++ l ++ "\n") := by
        simp [MM.add, h, hmem]
      rw [hg, if_neg hc]
      exact ih _ _ (FS.read_write_self g m.file _)

/-- C8 (counterexample): removing an identifier that is not among the
ledger entries reports `changed = false` but does not leave the file
byte-for-byte unchanged: the rebuild deduplicates the lines. -/
theorem remove_missing_id_rewrites :
    ((MM.mk "/r" []).remove false "b" [("/r/.managed", "a\na\n")]).2 = false ∧
      FS.read ((MM.mk "/r" []).remove false "b" [("/r/.managed", "a\na\n")]).1
          "/r/.managed" ≠ some "a\na\n" := by
  decide

/-- C8 (amended): when the ledger file exists with content `c` and `id`
is not among its lines, live `remove(id)` reports `changed = false`, and
rewrites the ledger file to the canonical rebuild of its lines (first
occurrences kept, each line newline-terminated) — equal to `c` exactly
when `c` is already in that form — while every other file is left
untouched. -/
theorem remove_missing_id (m : MM) (fs : FS) (c id : String)
    (hc : fs.read m.file = some c)
    (hid : (splitlines c).contains id = false) :
    (m.remove false id fs).2 = false ∧
      FS.read (m.remove false id fs).1 m.file =
        some (canonContent (splitlines c)) ∧
      ∀ q, q ≠ m.file → FS.read (m.remove false id fs).1 q = fs.read q := by
  have hnotmem : id ∉ splitlines c := by simpa [List.contains] using hid
  have herase : (splitlines c).erase id = splitlines c :=
    List.erase_of_not_mem hnotmem
  simp only [MM.remove, hc]
  refine ⟨by simp [hnotmem], ?_, ?_⟩
  · simp only [Bool.false_eq_true, if_false, herase]
    rw [addFold_content m (splitlines c) _ "" (enable_live_read m fs c hc)]
    rfl
  · intro q hq
    simp only [Bool.false_eq_true, if_false, herase]
    rw [addFold_frame m _ _ q hq, MM.enable_frame m false fs q hq]

/-- Witness for `remove_missing_id` on a concrete ledger. -/
theorem remove_missing_id_witness :
    ((MM.mk "/r" []).remove false "b" [("/r/.managed", "a\n")]).2 = false ∧
      FS.read ((MM.mk "/r" []).remove false "b" [("/r/.managed", "a\n")]).1
          "/r/.managed" = some (canonContent (splitlines "a\n")) ∧
      ∀ q, q ≠ (MM.mk "/r" []).file →
        FS.read ((MM.mk "/r" []).remove false "b" [("/r/.managed", "a\n")]).1 q =
          FS.read [("/r/.managed", "a\n")] q :=
  remove_missing_id (MM.mk "/r" []) [("/r/.managed", "a\n")] "a\n" "b"
    (by decide) (by decide)

/-! ## C9: the `baseurl`/`mirrorlist` validation in `YumRepo.add` -/

/-- C9: `YumRepo.add` fails exactly when the request supplies neither a
`baseurl` nor a `mirrorlist`; when at least one of the two is present the
validation failure does not occur. -/
theorem add_requires_url (doc : ConfigDoc) (d : Definition) :
    (∃ e, YumRepo.add doc d = Except.error e) ↔
      (d.find "baseurl" = none ∧ d.find "mirrorlist" = none) := by
  constructor
  · rintro ⟨e, he⟩
    unfold YumRepo.add at he
    by_cases hb : ((d.find "baseurl").isNone && (d.find "mirrorlist").isNone) = true
    · simp only [Bool.and_eq_true, Option.isNone_iff_eq_none] at hb
      exact hb
    · rw [if_neg hb] at he
      exact absurd he (by simp)
  · rintro ⟨h1, h2⟩
    refine ⟨"Paramater baseurl or mirrorlist is required for adding a new repo.", ?_⟩
    unfold YumRepo.add
    rw [if_pos (by simp [h1, h2])]

/-! ## Structure of the document produced by `YumRepo.add` -/

/-- The option list the parameter loop of `YumRepo.add` builds for the
fresh section. -/
def buildOpts (d : Definition) : List (String × String) :=
  (sortBy (fun a b => strLe a.1 b.1) d.params).foldl
    (fun oo kv =>
      if allowed_params.contains kv.1 then setOpt oo kv.1 (coerceValue kv.1 kv.2) else oo)
    []

theorem hasSection_append_self (e : ConfigDoc) (r : String)
    (os : List (String × String)) :
    hasSection (e ++ [⟨r, os⟩]) r = true := by
  simp [hasSection]

theorem hasSection_cons_false {s : Sect} {rest : ConfigDoc} {r : String}
    (h : hasSection (s :: rest) r = false) :
    ¬(s.name = r) ∧ hasSection rest r = false := by
  simp only [hasSection, List.any_cons, Bool.or_eq_false_iff] at h
  exact ⟨by simpa using h.1, h.2⟩

theorem removeSection_append (e : ConfigDoc) (r : String)
    (os : List (String × String)) (h : hasSection e r = false) :
    removeSection (e ++ [⟨r, os⟩]) r = e := by
  induction e with
  | nil => simp [removeSection, List.eraseP]
  | cons s rest ih =>
    rcases hasSection_cons_false h with ⟨hs, hrest⟩
    simp only [List.cons_append, removeSection, List.eraseP_cons, hs,
      decide_eq_true_eq]
    simp only [removeSection] at ih
    simp [hs, ih hrest]

theorem setDocOpt_append (e : ConfigDoc) (r k v : String)
    (os : List (String × String)) (h : hasSection e r = false) :
    setDocOpt (e ++ [⟨r, os⟩]) r k v = e ++ [⟨r, setOpt os k v⟩] := by
  induction e with
  | nil => simp [setDocOpt]
  | cons s rest ih =>
    rcases hasSection_cons_false h with ⟨hs, hrest⟩
    simp only [List.cons_append, setDocOpt, List.map_cons, if_neg hs]
    have := ih hrest
    simp only [setDocOpt] at this
    rw [this]

theorem foldSet_append (r : String) (params : List (String × PVal))
    (e : ConfigDoc) (os : List (String × String))
    (h : hasSection e r = false) :
    params.foldl
        (fun dd kv =>
          if allowed_params.contains kv.1 then
            setDocOpt dd r kv.1 (coerceValue kv.1 kv.2)
          else dd)
        (e ++ [⟨r, os⟩]) =
      e ++ [⟨r, params.foldl
        (fun oo kv =>
          if allowed_params.contains kv.1 then
            setOpt oo kv.1 (coerceValue kv.1 kv.2)
          else oo) os⟩] := by
  induction params generalizing os with
  | nil => rfl
  | cons kv rest ih =>
    by_cases ha : allowed_params.contains kv.1
    · simp only [List.foldl_cons, if_pos ha, setDocOpt_append e r _ _ os h]
      exact ih _
    · simp only [List.foldl_cons, if_neg ha]
      exact ih _

theorem hasSection_of_not_mem (e : ConfigDoc) (r : String)
    (h : r ∉ sections e) : hasSection e r = false := by
  induction e with
  | nil => rfl
  | cons s rest ih =>
    simp only [sections, List.map_cons, List.mem_cons] at h
    push_neg at h
    simp only [hasSection, List.any_cons, Bool.or_eq_false_iff]
    constructor
    · simpa using fun hh => h.1 hh.symm
    · exact ih (by simpa [sections] using h.2)

theorem hasSection_removeSection (doc : ConfigDoc) (r : String)
    (h : (sections doc).Nodup) :
    hasSection (removeSection doc r) r = false := by
  induction doc with
  | nil => rfl
  | cons s rest ih =>
    simp only [sections, List.map_cons, List.nodup_cons] at h
    by_cases hs : s.name = r
    · have hrw : removeSection (s :: rest) r = rest := by
        simp [removeSection, List.eraseP_cons, hs]
      rw [hrw]
      exact hasSection_of_not_mem rest r (hs ▸ h.1)
    · have := ih h.2
      simp only [removeSection] at this
      simp [removeSection, List.eraseP_cons, hs, hasSection, List.any_cons]
      simpa [hasSection] using this

theorem add_ok_valid (doc : ConfigDoc) (d : Definition) (D : ConfigDoc)
    (hD : YumRepo.add doc d = Except.ok D) :
    ((d.find "baseurl").isNone && (d.find "mirrorlist").isNone) = false := by
  by_cases hv : ((d.find "baseurl").isNone && (d.find "mirrorlist").isNone) = true
  · rw [YumRepo.add, if_pos hv] at hD
    cases hD
  · exact Bool.eq_false_iff.mpr hv

/-- Any successful `YumRepo.add` yields the old document minus the target
section, with a freshly built section appended. -/
theorem add_ok_shape (doc : ConfigDoc) (d : Definition) (D : ConfigDoc)
    (hnd : (sections doc).Nodup) (hD : YumRepo.add doc d = Except.ok D) :
    ∃ e0, hasSection e0 d.repoid = false ∧
      D = e0 ++ [⟨d.repoid, buildOpts d⟩] := by
  have hv := add_ok_valid doc d D hD
  rw [YumRepo.add, if_neg (by simp [hv])] at hD
  refine ⟨if hasSection doc d.repoid then removeSection doc d.repoid else doc,
    ?_, ?_⟩
  · by_cases hh : hasSection doc d.repoid
    · simp only [if_pos hh]
      exact hasSection_removeSection doc d.repoid hnd
    · simp only [if_neg hh]
      simpa using hh
  · have hfold := foldSet_append d.repoid
      (sortBy (fun a b => strLe a.1 b.1) d.params)
      (if hasSection doc d.repoid then removeSection doc d.repoid else doc) []
      (by
        by_cases hh : hasSection doc d.repoid
        · simp only [if_pos hh]
          exact hasSection_removeSection doc d.repoid hnd
        · simp only [if_neg hh]
          simpa using hh)
    have hD2 := Except.ok.inj hD
    rw [← hD2]
    simpa [addSection, buildOpts] using hfold

/-! ## C4: idempotence of `apply` -/

/-- C4: applying the same valid definition twice yields an unchanged
serialized snapshot on the second application (the orchestrator then
reports `changed = false`). -/
theorem add_idempotent (doc : ConfigDoc) (d : Definition) (D : ConfigDoc)
    (hnd : (sections doc).Nodup)
    (hD : YumRepo.add doc d = Except.ok D) :
    ∃ D2, YumRepo.add D d = Except.ok D2 ∧ YumRepo.dump D2 = YumRepo.dump D := by
  rcases add_ok_shape doc d D hnd hD with ⟨e0, he0, hshape⟩
  have hv := add_ok_valid doc d D hD
  refine ⟨D, ?_, rfl⟩
  rw [YumRepo.add, if_neg (by simp [hv])]
  have h1 : hasSection D d.repoid = true := by
    rw [hshape]; exact hasSection_append_self e0 d.repoid _
  rw [if_pos h1, hshape, removeSection_append e0 d.repoid _ he0]
  have hfold := foldSet_append d.repoid
    (sortBy (fun a b => strLe a.1 b.1) d.params) e0 [] he0
  simpa [addSection, buildOpts] using hfold

/-- Witness for `add_idempotent` on a concrete request. -/
theorem add_idempotent_witness :
    ∃ D2, YumRepo.add [Sect.mk "epel" [("baseurl", "u"), ("name", "E")]]
        (Definition.mk "epel" [("baseurl", PVal.str "u"), ("name", PVal.str "E")]) =
        Except.ok D2 ∧
      YumRepo.dump D2 =
        YumRepo.dump [Sect.mk "epel" [("baseurl", "u"), ("name", "E")]] := by
  have h := add_idempotent []
    (Definition.mk "epel" [("baseurl", PVal.str "u"), ("name", PVal.str "E")])
    [Sect.mk "epel" [("baseurl", "u"), ("name", "E")]]
    (by simp [sections]) (by rfl)
  exact h

/-! ## C5: replace, not merge -/

theorem itemsOf_append_self (e : ConfigDoc) (r : String)
    (os : List (String × String)) (h : hasSection e r = false) :
    itemsOf (e ++ [⟨r, os⟩]) r = os := by
  induction e with
  | nil => simp [itemsOf, List.find?]
  | cons s rest ih =>
    rcases hasSection_cons_false h with ⟨hs, hrest⟩
    have := ih hrest
    simp only [itemsOf, List.cons_append, List.find?] at *
    simpa [hs] using this

theorem mem_keys_setOpt (os : List (String × String)) (k v a : String)
    (h : a ∈ (setOpt os k v).map Prod.fst) :
    a ∈ os.map Prod.fst ∨ a = k := by
  unfold setOpt at h
  by_cases hc : os.any fun kv => kv.1 = k
  · rw [if_pos hc] at h
    rw [List.map_map, List.mem_map] at h
    rcases h with ⟨kv, hkv, hfst⟩
    by_cases hk : kv.1 = k
    · right
      simpa [hk] using hfst.symm
    · left
      rw [List.mem_map]
      exact ⟨kv, hkv, by simpa [hk] using hfst⟩
  · rw [if_neg hc] at h
    simp only [List.map_append, List.mem_append, List.map_cons, List.map_nil,
      List.mem_singleton] at h
    rcases h with h | h
    · exact Or.inl h
    · exact Or.inr h

theorem keys_foldSetOpt (params : List (String × PVal))
    (os : List (String × String)) (a : String)
    (h : a ∈ ((params.foldl
        (fun oo kv =>
          if allowed_params.contains kv.1 then
            setOpt oo kv.1 (coerceValue kv.1 kv.2)
          else oo) os).map Prod.fst)) :
    a ∈ os.map Prod.fst ∨ a ∈ params.map Prod.fst := by
  induction params generalizing os with
  | nil => exact Or.inl h
  | cons kv rest ih =>
    simp only [List.foldl_cons] at h
    by_cases ha : allowed_params.contains kv.1
    · rw [if_pos ha] at h
      rcases ih _ h with h2 | h2
      · rcases mem_keys_setOpt os kv.1 _ a h2 with h3 | h3
        · exact Or.inl h3
        · exact Or.inr (by simp [h3])
      · exact Or.inr (by simp [h2])
    · rw [if_neg ha] at h
      rcases ih _ h with h2 | h2
      · exact Or.inl h2
      · exact Or.inr (by simp [h2])

theorem keys_buildOpts (d : Definition) (a : String)
    (h : a ∈ (buildOpts d).map Prod.fst) :
    a ∈ d.params.map Prod.fst := by
  rcases keys_foldSetOpt (sortBy (fun a b => strLe a.1 b.1) d.params) [] a h with
    h2 | h2
  · simp at h2
  · rw [List.mem_map] at h2 ⊢
    rcases h2 with ⟨kv, hkv, hfst⟩
    exact ⟨kv, (mem_sortBy _ kv d.params).mp hkv, hfst⟩

/-- C5: `YumRepo.add` entirely replaces an existing section: any key `b`
present in the old section but absent from the request is absent from the
resulting section. -/
theorem add_replace_not_merge (doc : ConfigDoc) (d : Definition) (b : String)
    (D : ConfigDoc)
    (hnd : (sections doc).Nodup)
    (hsec : hasSection doc d.repoid = true)
    (hbkey : b ∈ (itemsOf doc d.repoid).map Prod.fst)
    (hbnot : b ∉ d.params.map Prod.fst)
    (hD : YumRepo.add doc d = Except.ok D) :
    b ∉ (itemsOf D d.repoid).map Prod.fst := by
  rcases add_ok_shape doc d D hnd hD with ⟨e0, he0, hshape⟩
  rw [hshape, itemsOf_append_self e0 d.repoid _ he0]
  intro hmem
  exact hbnot (keys_buildOpts d b hmem)

/-- Witness for `add_replace_not_merge` on a concrete document. -/
theorem add_replace_not_merge_witness :
    "gpgkey" ∉ (itemsOf [Sect.mk "epel" [("baseurl", "u2")]] "epel").map Prod.fst :=
  add_replace_not_merge
    [Sect.mk "epel" [("baseurl", "u"), ("gpgkey", "g")]]
    (Definition.mk "epel" [("baseurl", PVal.str "u2")])
    "gpgkey"
    [Sect.mk "epel" [("baseurl", "u2")]]
    (by decide) (by decide) (by decide) (by decide) (by rfl)

/-! ## C3: bytes written by `save` versus the `dump` serialization -/

theorem foldl_congr_mem {α β : Type _} (l : List α) (f g : β → α → β) (b : β)
    (h : ∀ bb a, a ∈ l → f bb a = g bb a) : l.foldl f b = l.foldl g b := by
  induction l generalizing b with
  | nil => rfl
  | cons x xs ih =>
    simp only [List.foldl_cons]
    rw [h b x (by simp)]
    exact ih _ fun bb a ha => h bb a (by simp [ha])

theorem itemsOf_of_mem (doc : ConfigDoc) (s : Sect) (hmem : s ∈ doc)
    (hnd : (sections doc).Nodup) : itemsOf doc s.name = s.opts := by
  induction doc with
  | nil => cases hmem
  | cons t rest ih =>
    simp only [sections, List.map_cons, List.nodup_cons] at hnd
    rcases List.mem_cons.mp hmem with rfl | hmem2
    · simp [itemsOf, List.find?]
    · have hsname : s.name ∈ rest.map fun u => u.name :=
        List.mem_map.mpr ⟨s, hmem2, rfl⟩
      have ht : ¬(t.name = s.name) := fun he => hnd.1 (he ▸ hsname)
      have := ih hmem2 hnd.2
      simp only [itemsOf, List.find?] at *
      simpa [ht] using this

/-- `RawConfigParser.write` output coincides with `dump` exactly when the
document is already canonically ordered and values are newline-free. -/
theorem writeDoc_eq_dump (doc : ConfigDoc)
    (hsort : (sections doc).Pairwise fun a b => strLe a b = true)
    (hnd : (sections doc).Nodup)
    (hopts : ∀ s ∈ doc, s.opts.Pairwise fun a b => pairLe a b = true)
    (hvals : ∀ s ∈ doc, ∀ kv ∈ s.opts, escNL kv.2 = kv.2) :
    writeDoc doc = YumRepo.dump doc := by
  unfold writeDoc YumRepo.dump
  rw [sortBy_of_pairwise _ _ hsort]
  unfold sections
  rw [List.foldl_map]
  refine (foldl_congr_mem doc _ _ "" ?_).symm
  intro bb s hs
  rw [itemsOf_of_mem doc s hs hnd, sortBy_of_pairwise _ _ (hopts s hs)]
  rw [foldl_congr_mem s.opts _
    (fun a kv => a ++ kv.1 ++ " = " ++ escNL kv.2 ++ "\n") ""
    fun aa kv hkv => by simp only [hvals s hs kv hkv]]

/-- C3 (counterexample): with sections stored out of sorted order, the
bytes `save` writes (via `RawConfigParser.write`, insertion order) differ
from `serialize`/`dump` (sorted order). -/
theorem save_bytes_ne_serialize :
    YumRepo.save [Sect.mk "b" [("name", "B")], Sect.mk "a" [("name", "A")]]
        "/r/f.repo" [] =
      Except.ok [("/r/f.repo",
        writeDoc [Sect.mk "b" [("name", "B")], Sect.mk "a" [("name", "A")]])] ∧
      writeDoc [Sect.mk "b" [("name", "B")], Sect.mk "a" [("name", "A")]] ≠
        YumRepo.dump [Sect.mk "b" [("name", "B")], Sect.mk "a" [("name", "A")]] :=
  ⟨rfl, by decide⟩

/-- C3 (amended): `save` writes the document in its stored insertion
order (`RawConfigParser.write`); the written content is byte-for-byte
equal to `dump` (the sorted serialization used for change detection)
exactly when sections and keys are already stored in sorted order and no
value contains a newline. -/
theorem save_canonical_eq_serialize (doc : ConfigDoc) (dest : String) (fs : FS)
    (hne : doc ≠ [])
    (hsort : (sections doc).Pairwise fun a b => strLe a b = true)
    (hnd : (sections doc).Nodup)
    (hopts : ∀ s ∈ doc, s.opts.Pairwise fun a b => pairLe a b = true)
    (hvals : ∀ s ∈ doc, ∀ kv ∈ s.opts, escNL kv.2 = kv.2) :
    YumRepo.save doc dest fs = Except.ok (fs.write dest (YumRepo.dump doc)) := by
  unfold YumRepo.save
  rw [if_pos (by simpa using hne)]
  rw [writeDoc_eq_dump doc hsort hnd hopts hvals]

/-- Witness for `save_canonical_eq_serialize` on a sorted document. -/
theorem save_canonical_eq_serialize_witness :
    YumRepo.save [Sect.mk "a" [("k", "v")], Sect.mk "b" [("x", "y")]]
        "/r/f.repo" [] =
      Except.ok (FS.write [] "/r/f.repo"
        (YumRepo.dump [Sect.mk "a" [("k", "v")], Sect.mk "b" [("x", "y")]])) :=
  save_canonical_eq_serialize
    [Sect.mk "a" [("k", "v")], Sect.mk "b" [("x", "y")]] "/r/f.repo" []
    (by decide) (by decide) (by decide) (by decide) (by decide)

/-! ## C6: the sweep of unmanaged repo files -/

theorem isRepoPath_managed (rd : String) :
    isRepoPath rd (rd ++ "/.managed") = false := by
  have h1 : ("/.managed" : String).data = '/' :: (".managed" : String).data := rfl
  have hdata : (rd ++ "/.managed").data =
      (rd.data ++ ['/']) ++ (".managed" : String).data := by
    rw [String.data_append, h1, List.append_cons]
  simp only [isRepoPath]
  rw [hdata, List.drop_left]
  simp

theorem destPath_ne_managed (rd f : String) :
    destPath rd f ≠ rd ++ "/.managed" := by
  intro h
  have hd := congrArg String.data h
  simp only [destPath, String.data_append] at hd
  have hd2 : rd.data ++ ['/'] ++ (f.data ++ ['.', 'r', 'e', 'p', 'o']) =
      rd.data ++ ['/'] ++ ['.', 'm', 'a', 'n', 'a', 'g', 'e', 'd'] := by
    simpa [List.append_assoc] using hd
  have h3 := List.append_cancel_left hd2
  have hlen := congrArg List.length h3
  simp only [List.length_append, List.length_cons, List.length_nil] at hlen
  have hflen : f.data.length = 3 := by omega
  have hdrop := congrArg (List.drop f.data.length) h3
  rw [List.drop_left] at hdrop
  rw [hflen] at hdrop
  exact absurd hdrop (by decide)

theorem mem_globRepo_ne_managed (fs : FS) (m : MM) (p : String)
    (hp : p ∈ globRepo fs m.reposdir) : p ≠ m.file := by
  intro he
  have hrp : isRepoPath m.reposdir p = true := (List.mem_filter.mp hp).2
  rw [he] at hrp
  rw [show m.file = m.reposdir ++ "/.managed" from rfl, isRepoPath_managed] at hrp
  cases hrp

theorem mem_globRepo_isfile (fs : FS) (m : MM) (p : String)
    (hp : p ∈ globRepo fs m.reposdir) : fs.isfile p = true :=
  FS.isfile_of_mem_keys fs p (List.mem_filter.mp hp).1

/-- Unfolding of the live `process` loop. -/
theorem process_live_eq (m : MM) (fs : FS) (h : fs.isfile m.file = true) :
    m.process false fs =
      (globRepo fs m.reposdir).foldl
        (fun acc f =>
          if !((splitlines ((fs.read m.file).getD "")).contains (derivedId f)) &&
              !(m.ignore.contains (derivedId f)) then
            ((m.remove false (derivedId f) (acc.1.remove f)).1, true)
          else acc)
        (fs, false) := by
  unfold MM.process
  rw [if_pos h]
  rfl

/-- Invariant of the live sweep loop: a visited file is deleted exactly
when its derived id is neither managed nor exempt, unvisited files are
untouched, and the changed flag accumulates. -/
theorem processFold_live (m : MM) (managed : List String) (L : List String)
    (g : FS) (b : Bool) (hnd : L.Nodup) (hne : ∀ p ∈ L, p ≠ m.file) :
    (∀ q, q ≠ m.file → q ∉ L →
        FS.read (L.foldl
          (fun acc f =>
            if !(managed.contains (derivedId f)) &&
                !(m.ignore.contains (derivedId f)) then
              ((m.remove false (derivedId f) (acc.1.remove f)).1, true)
            else acc) (g, b)).1 q = g.read q) ∧
      (∀ p ∈ L,
        FS.read (L.foldl
          (fun acc f =>
            if !(managed.contains (derivedId f)) &&
                !(m.ignore.contains (derivedId f)) then
              ((m.remove false (derivedId f) (acc.1.remove f)).1, true)
            else acc) (g, b)).1 p =
          (if !(managed.contains (derivedId p)) &&
              !(m.ignore.contains (derivedId p)) then none else g.read p)) ∧
      (L.foldl
          (fun acc f =>
            if !(managed.contains (derivedId f)) &&
                !(m.ignore.contains (derivedId f)) then
              ((m.remove false (derivedId f) (acc.1.remove f)).1, true)
            else acc) (g, b)).2 =
        (b || L.any fun p =>
          !(managed.contains (derivedId p)) && !(m.ignore.contains (derivedId p))) := by
  induction L generalizing g b with
  | nil => exact ⟨fun q _ _ => rfl, fun p hp => absurd hp (by simp), by simp⟩
  | cons f rest ih =>
    have hfm : f ≠ m.file := hne f (by simp)
    have hndr : rest.Nodup := (List.nodup_cons.mp hnd).2
    have hfr : f ∉ rest := (List.nodup_cons.mp hnd).1
    have hner : ∀ p ∈ rest, p ≠ m.file := fun p hp => hne p (by simp [hp])
    by_cases hcond : (!(managed.contains (derivedId f)) &&
        !(m.ignore.contains (derivedId f))) = true
    · -- the head file is deleted
      simp only [List.foldl_cons, if_pos hcond]
      set g2 := (m.remove false (derivedId f) (g.remove f)).1 with hg2
      have hg2read : ∀ q, q ≠ m.file → q ≠ f → FS.read g2 q = g.read q := by
        intro q hqm hqf
        rw [hg2, MM.remove_frame m false _ _ q hqm, FS.read_remove_ne g f q hqf]
      have hg2f : FS.read g2 f = none := by
        rw [hg2, MM.remove_frame m false _ _ f hfm, FS.read_remove_self]
      rcases ih g2 true hndr hner with ⟨ihframe, ihmem, ihflag⟩
      refine ⟨?_, ?_, ?_⟩
      · intro q hqm hqL
        rw [ihframe q hqm (fun hh => hqL (by simp [hh]))]
        exact hg2read q hqm (fun hh => hqL (by simp [hh]))
      · intro p hp
        rcases List.mem_cons.mp hp with rfl | hp2
        · rw [ihframe p hfm hfr, if_pos hcond]
          exact hg2f
        · rw [ihmem p hp2]
          by_cases hc2 : (!(managed.contains (derivedId p)) &&
              !(m.ignore.contains (derivedId p))) = true
          · rw [if_pos hc2, if_pos hc2]
          · rw [if_neg hc2, if_neg hc2]
            exact hg2read p (hner p hp2)
              (fun hh => hfr (hh ▸ hp2))
      · rw [ihflag]
        simp only [List.any_cons, hcond, Bool.true_or, Bool.or_true]
    · -- the head file is kept
      simp only [List.foldl_cons, if_neg hcond]
      rcases ih g b hndr hner with ⟨ihframe, ihmem, ihflag⟩
      refine ⟨?_, ?_, ?_⟩
      · intro q hqm hqL
        exact ihframe q hqm (fun hh => hqL (by simp [hh]))
      · intro p hp
        rcases List.mem_cons.mp hp with rfl | hp2
        · rw [if_neg hcond]
          exact ihframe p hfm hfr
        · exact ihmem p hp2
      · rw [ihflag]
        have hcf : (!(managed.contains (derivedId f)) &&
            !(m.ignore.contains (derivedId f))) = false := by
          simpa using hcond
        simp only [List.any_cons, hcf, Bool.false_or]

/-- C6: with the ledger present, the live sweep deletes exactly the repo
files whose derived id is neither a ledger entry nor exempt, leaves every
other repo file in place, and reports `changed = true` iff at least one
file was deleted. -/
theorem process_sweep (m : MM) (fs : FS) (c : String)
    (hwf : FS.Wf fs) (hc : fs.read m.file = some c) :
    (∀ p ∈ globRepo fs m.reposdir,
        FS.read (m.process false fs).1 p =
          (if !((splitlines c).contains (derivedId p)) &&
              !(m.ignore.contains (derivedId p)) then none else fs.read p)) ∧
      ((m.process false fs).2 = true ↔
        ∃ p ∈ globRepo fs m.reposdir,
          (!((splitlines c).contains (derivedId p)) &&
            !(m.ignore.contains (derivedId p))) = true) := by
  have hfile : fs.isfile m.file = true := by simp [FS.isfile, hc]
  have heq := process_live_eq m fs hfile
  rw [hc] at heq
  simp only [Option.getD_some] at heq
  have hnd : (globRepo fs m.reposdir).Nodup := List.Nodup.filter _ hwf
  have hne : ∀ p ∈ globRepo fs m.reposdir, p ≠ m.file :=
    fun p hp => mem_globRepo_ne_managed fs m p hp
  rcases processFold_live m (splitlines c) (globRepo fs m.reposdir) fs false
    hnd hne with ⟨_, hmem, hflag⟩
  constructor
  · intro p hp
    rw [heq]
    exact hmem p hp
  · rw [heq, hflag]
    simp [List.any_eq_true]

/-- Witness for `process_sweep` on the scenario from the spec: ledger
entries `{a}`, exempt set `{b}`, repo files `{a,b,c}`. -/
theorem process_sweep_witness :
    (∀ p ∈ globRepo [("/r/.managed", "a\n"), ("/r/a.repo", "A"),
        ("/r/b.repo", "B"), ("/r/c.repo", "C")] (MM.mk "/r" ["b"]).reposdir,
        FS.read ((MM.mk "/r" ["b"]).process false
            [("/r/.managed", "a\n"), ("/r/a.repo", "A"),
             ("/r/b.repo", "B"), ("/r/c.repo", "C")]).1 p =
          (if !((splitlines "a\n").contains (derivedId p)) &&
              !((MM.mk "/r" ["b"]).ignore.contains (derivedId p)) then none
           else FS.read [("/r/.managed", "a\n"), ("/r/a.repo", "A"),
              ("/r/b.repo", "B"), ("/r/c.repo", "C")] p)) ∧
      (((MM.mk "/r" ["b"]).process false
          [("/r/.managed", "a\n"), ("/r/a.repo", "A"),
           ("/r/b.repo", "B"), ("/r/c.repo", "C")]).2 = true ↔
        ∃ p ∈ globRepo [("/r/.managed", "a\n"), ("/r/a.repo", "A"),
            ("/r/b.repo", "B"), ("/r/c.repo", "C")] (MM.mk "/r" ["b"]).reposdir,
          (!((splitlines "a\n").contains (derivedId p)) &&
            !((MM.mk "/r" ["b"]).ignore.contains (derivedId p))) = true) :=
  process_sweep (MM.mk "/r" ["b"])
    [("/r/.managed", "a\n"), ("/r/a.repo", "A"),
     ("/r/b.repo", "B"), ("/r/c.repo", "C")] "a\n"
    (by unfold FS.Wf; decide) (by decide)

/-! ## C7: dry-run purity -/

theorem enable_check (m : MM) (fs : FS) :
    m.enable true fs = (fs, (m.enable false fs).2) := by
  simp only [MM.enable]
  by_cases h : (!fs.isfile m.file || decide ((fs.read m.file).getD "" ≠ "")) = true
  · rw [if_pos h, if_pos h]
    rfl
  · rw [if_neg h, if_neg h]

theorem disable_check (m : MM) (fs : FS) :
    m.disable true fs = (fs, (m.disable false fs).2) := by
  unfold MM.disable
  by_cases h : fs.isfile m.file = true
  · rw [if_pos h, if_pos h]
    rfl
  · rw [if_neg h, if_neg h]

theorem mmAdd_check (m : MM) (id : String) (fs : FS) :
    m.add true id fs = (fs, (m.add false id fs).2) := by
  unfold MM.add
  cases fs.read m.file with
  | none => rfl
  | some c =>
    dsimp only
    by_cases hc : (splitlines c).contains id = true
    · rw [if_pos hc, if_pos hc]
    · rw [if_neg hc, if_neg hc]
      rfl

theorem mmRemove_check (m : MM) (id : String) (fs : FS) :
    m.remove true id fs = (fs, (m.remove false id fs).2) := by
  unfold MM.remove
  cases fs.read m.file with
  | none => rfl
  | some c => rfl

theorem fold_check_eq (cond : String → Bool) (L : List String) (g : FS) (b : Bool) :
    L.foldl (fun acc f => if cond f then (acc.1, true) else acc) (g, b) =
      (g, b || L.any cond) := by
  induction L generalizing b with
  | nil => simp
  | cons f rest ih =>
    by_cases h : cond f = true
    · simp [List.foldl_cons, h, ih]
    · simp [List.foldl_cons, h, ih]

theorem fold_live_snd (cond : String → Bool) (F : FS × Bool → String → FS)
    (L : List String) (g : FS) (b : Bool) :
    (L.foldl (fun acc f => if cond f then (F acc f, true) else acc) (g, b)).2 =
      (b || L.any cond) := by
  induction L generalizing g b with
  | nil => simp
  | cons f rest ih =>
    by_cases h : cond f = true
    · simp [List.foldl_cons, h, ih]
    · simp [List.foldl_cons, h, ih]

theorem process_check (m : MM) (fs : FS) :
    m.process true fs = (fs, (m.process false fs).2) := by
  unfold MM.process
  by_cases h : fs.isfile m.file = true
  · rw [if_pos h, if_pos h]
    have hch := fold_check_eq
      (fun f => !(splitlines ((fs.read m.file).getD "")).contains (derivedId f) &&
        !(m.ignore.contains (derivedId f)))
      (globRepo fs m.reposdir) fs false
    have hlv := fold_live_snd
      (fun f => !(splitlines ((fs.read m.file).getD "")).contains (derivedId f) &&
        !(m.ignore.contains (derivedId f)))
      (fun acc f => (m.remove false (derivedId f) (acc.1.remove f)).1)
      (globRepo fs m.reposdir) fs false
    exact hch.trans (congrArg (Prod.mk fs) hlv.symm)
  · rw [if_neg h, if_neg h]

theorem foldSet_length (r : String) (params : List (String × PVal))
    (dd : ConfigDoc) :
    (params.foldl
        (fun dd kv =>
          if allowed_params.contains kv.1 then
            setDocOpt dd r kv.1 (coerceValue kv.1 kv.2)
          else dd) dd).length = dd.length := by
  induction params generalizing dd with
  | nil => rfl
  | cons kv rest ih =>
    simp only [List.foldl_cons]
    by_cases ha : allowed_params.contains kv.1
    · rw [if_pos ha, ih]
      simp [setDocOpt]
    · rw [if_neg ha, ih]

theorem add_ok_ne_nil (doc : ConfigDoc) (d : Definition) (D : ConfigDoc)
    (hD : YumRepo.add doc d = Except.ok D) : D ≠ [] := by
  have hv := add_ok_valid doc d D hD
  rw [YumRepo.add, if_neg (by simp [hv])] at hD
  have hlen := foldSet_length d.repoid
    (sortBy (fun a b => strLe a.1 b.1) d.params)
    (addSection (if hasSection doc d.repoid then removeSection doc d.repoid
      else doc) d.repoid)
  rw [Except.ok.inj hD] at hlen
  intro hnil
  rw [hnil] at hlen
  simp [addSection] at hlen

theorem save_of_ne_nil (doc : ConfigDoc) (dest : String) (fs : FS)
    (h : doc ≠ []) :
    YumRepo.save doc dest fs = Except.ok (fs.write dest (writeDoc doc)) := by
  unfold YumRepo.save
  rw [if_pos (by simpa using h)]

theorem save_frame (doc : ConfigDoc) (dest : String) (fs f2 : FS) (q : String)
    (hq : q ≠ dest) (h : YumRepo.save doc dest fs = Except.ok f2) :
    FS.read f2 q = fs.read q := by
  unfold YumRepo.save at h
  by_cases h1 : doc.length ≠ 0
  · rw [if_pos h1] at h
    rw [← Except.ok.inj h]
    exact FS.read_write_ne fs dest _ q hq
  · rw [if_neg h1] at h
    by_cases h2 : fs.isfile dest = true
    · rw [if_pos h2] at h
      rw [← Except.ok.inj h]
      exact FS.read_remove_ne fs dest q hq
    · rw [if_neg h2] at h
      cases h

theorem mainAbsent_fs1_check (m : MM) (file : String) (fs : FS) :
    (if !fs.isfile file then (m.remove true file fs).1 else fs) = fs := by
  by_cases hb : fs.isfile file = true
  · simp [hb]
  · simp only [Bool.not_eq_true] at hb
    simp [hb, congrArg Prod.fst (mmRemove_check m file fs)]

theorem mainAbsent_fs1_frame (m : MM) (file : String) (fs : FS) (q : String)
    (hq : q ≠ m.file) :
    FS.read (if !fs.isfile file then (m.remove false file fs).1 else fs) q =
      fs.read q := by
  by_cases hb : (!fs.isfile file) = true
  · rw [if_pos hb]
    exact MM.remove_frame m false file fs q hq
  · rw [if_neg hb]

/-- C7: any operation of either component (and the orchestrator flows
driving them) executed in dry-run mode returns the same `changed` value
as the live run from the same state, while leaving every file
byte-for-byte unchanged. -/
theorem dryrun_purity (m : MM) (op : Op) (fs : FS)
    (hc : LoadConsistent m op fs) :
    runOp m op true fs = (runOp m op false fs).map fun r => (fs, r.2) := by
  cases op with
  | mmEnable =>
    simp only [runOp, Except.map]
    rw [enable_check]
  | mmDisable =>
    simp only [runOp, Except.map]
    rw [disable_check]
  | mmAdd id =>
    simp only [runOp, Except.map]
    rw [mmAdd_check]
  | mmRemove id =>
    simp only [runOp, Except.map]
    rw [mmRemove_check]
  | mmProcess =>
    simp only [runOp, Except.map]
    rw [process_check]
  | present doc d file =>
    simp only [runOp, mainPresent]
    cases hadd : YumRepo.add doc d with
    | error e => rfl
    | ok docAfter =>
      dsimp only
      simp only [Bool.not_true, Bool.not_false, Bool.false_and, Bool.true_and,
        Bool.false_eq_true, if_false]
      have hfs1 : (m.add true file fs).1 = fs :=
        congrArg Prod.fst (mmAdd_check m file fs)
      by_cases hch : (YumRepo.dump doc != YumRepo.dump docAfter) = true
      · rw [if_pos hch,
          save_of_ne_nil docAfter (destPath m.reposdir file) _
            (add_ok_ne_nil doc d docAfter hadd)]
        simp only [Except.map, hfs1]
      · rw [if_neg hch]
        simp only [Except.map, hfs1]
  | absent doc repoid file =>
    have hc2 : doc ≠ [] → fs.isfile (destPath m.reposdir file) = true := hc
    simp only [runOp, mainAbsent]
    simp only [Bool.not_true, Bool.not_false, Bool.false_and, Bool.true_and,
      Bool.false_eq_true, if_false]
    rw [mainAbsent_fs1_check]
    by_cases hch : (YumRepo.dump doc != YumRepo.dump (YumRepo.remove doc repoid)) = true
    · rw [if_pos hch]
      by_cases hnil : YumRepo.remove doc repoid = []
      · have hdoc : doc ≠ [] := by
          intro hd
          rw [hd] at hch
          simp [YumRepo.remove, hasSection] at hch
        have hisf : FS.isfile
            (if !fs.isfile file then (m.remove false file fs).1 else fs)
            (destPath m.reposdir file) = true := by
          have hrd := mainAbsent_fs1_frame m file fs (destPath m.reposdir file)
            (destPath_ne_managed m.reposdir file)
          show (FS.read (if !fs.isfile file then (m.remove false file fs).1 else fs)
            (destPath m.reposdir file)).isSome = true
          rw [hrd]
          exact hc2 hdoc
        rw [hnil]
        unfold YumRepo.save
        rw [if_neg (by simp), if_pos hisf]
        simp only [Except.map]
      · rw [save_of_ne_nil (YumRepo.remove doc repoid)
          (destPath m.reposdir file) _ hnil]
        simp only [Except.map]
    · rw [if_neg hch]
      simp only [Except.map]

/-- Witness for `dryrun_purity` at a concrete operation and state. -/
theorem dryrun_purity_witness :
    runOp (MM.mk "/r" []) Op.mmEnable true [("/r/.managed", "x\n")] =
      (runOp (MM.mk "/r" []) Op.mmEnable false [("/r/.managed", "x\n")]).map
        (fun r => ([("/r/.managed", "x\n")], r.2)) :=
  dryrun_purity (MM.mk "/r" []) Op.mmEnable [("/r/.managed", "x\n")] trivial

/-! ## C10: the `state=absent` ledger guard tests the bare file name -/

/-- C10: during a live `state=absent` run, whenever a file whose path is
the bare file identifier (resolved against the current working
directory) exists, the ledger is left untouched — even though the actual
repository file under the repository directory may have just been
deleted; the ledger entry is removed only when no file exists at that
bare path. -/
theorem absent_ledger_guard (m : MM) (doc : ConfigDoc) (repoid file : String)
    (fs : FS) (r : FS × Bool)
    (hbare : fs.isfile file = true)
    (hok : mainAbsent m doc repoid file false fs = Except.ok r) :
    FS.read r.1 m.file = fs.read m.file := by
  unfold mainAbsent at hok
  simp only [hbare, Bool.not_true, Bool.false_eq_true, if_false,
    Bool.not_false, Bool.true_and] at hok
  by_cases hch : (YumRepo.dump doc != YumRepo.dump (YumRepo.remove doc repoid)) = true
  · rw [if_pos hch] at hok
    cases hsv : YumRepo.save (YumRepo.remove doc repoid)
        (destPath m.reposdir file) fs with
    | error e =>
      rw [hsv] at hok
      cases hok
    | ok f2 =>
      rw [hsv] at hok
      simp only [Except.map] at hok
      have hr : r.1 = f2 := by
        rw [← Except.ok.inj hok]
      rw [hr]
      exact save_frame (YumRepo.remove doc repoid) (destPath m.reposdir file)
        fs f2 m.file (Ne.symm (destPath_ne_managed m.reposdir file)) hsv
  · rw [if_neg hch] at hok
    have hr : r.1 = fs := by
      rw [← Except.ok.inj hok]
    rw [hr]

/-- Witness for `absent_ledger_guard`: the repo file under the repos
directory is deleted, yet the ledger entry survives because a file with
the bare name exists in the working directory. -/
theorem absent_ledger_guard_witness :
    FS.read ([("epel", "cwd"), ("/r/.managed", "epel\n")] : FS)
        (MM.mk "/r" []).file =
      FS.read [("epel", "cwd"), ("/r/.managed", "epel\n"),
        ("/r/epel.repo", "[epel]\nbaseurl = u\n\n")] (MM.mk "/r" []).file :=
  absent_ledger_guard (MM.mk "/r" [])
    [Sect.mk "epel" [("baseurl", "u")]] "epel" "epel"
    [("epel", "cwd"), ("/r/.managed", "epel\n"),
     ("/r/epel.repo", "[epel]\nbaseurl = u\n\n")]
    ([("epel", "cwd"), ("/r/.managed", "epel\n")], true)
    (by decide) (by rfl)

end YumRepoModel
